import Mathlib

/-!
Verification of the VJSON codec and override-composition model of
tutor-contrib-recon against its specification.

The Python sources embedded here are the files of
`tutor_recon/util/vjson/` (constants.py, format.py, decoder.py,
encoder.py, functions.py, reference.py), `tutor_recon/util/misc.py`
(which defines the same dict-walking helpers as the package-internal
`vjson/util.py` referenced by the code) and `tutor_recon/override/`
(override.py, sequence.py, module.py, template.py, config.py,
reference.py).

Modelling conventions:
  - Python strings and filesystem paths are `List Char` (named `Str`).
  - Python dicts are association lists with unique keys; `dictSet`
    implements `d[k] = v` (overwrite in place, append if new), matching
    the insertion-order semantics of Python dicts.
  - The filesystem is an association list from path to parsed content.
  - Exceptions are an explicit error type in `Except`.
  - Machine-level details (buffering, inodes) are noted in comments
    where they matter.
-/

namespace TCRecon

/-- Python strings, modelled as lists of characters. -/
abbrev Str := List Char

/-- A parsed standard-JSON tree, the input of `VJSONDecoder.object_hook`
(the `json` module parses objects into dicts bottom-up; an object node here
stands for the parsed dict, whose keys are unique). -/
inductive J : Type where
  | str (s : Str)
  | num (n : Int)
  | bool (b : Bool)
  | null
  | arr (xs : List J)
  | obj (ps : List (Str × J))

/-- The decoded value space of VJSON: JSON data plus `RemoteMapping`
(a `WrappedDict` that remembers its target path; it is a `MutableMapping`
but deliberately not a `dict` instance, see `misc.WrappedDict`). -/
inductive V : Type where
  | str (s : Str)
  | num (n : Int)
  | bool (b : Bool)
  | null
  | arr (xs : List V)
  | obj (ps : List (Str × V))
  | remote (target : Str) (data : List (Str × V))

instance : Nonempty J := ⟨.null⟩

instance : Nonempty V := ⟨.null⟩

/-- Python exceptions raised by the modelled code paths. -/
inductive Err : Type where
  | typeError
  | keyError
  | valueError
  | assertionError
  | fileNotFoundError
  | fuelExhausted
deriving DecidableEq

/-- Python dict lookup `d[k]`: the value stored under `k`, if any. -/
def lookupC {α β : Type} [DecidableEq α] : List (α × β) → α → Option β
  | [], _ => none
  | (k', v) :: rest, k => if k' = k then some v else lookupC rest k

/-- Python dict assignment `d[k] = v`: overwrite in place keeping the original
position, append at the end if the key is new. -/
def dictSet {α β : Type} [DecidableEq α] : List (α × β) → α → β → List (α × β)
  | [], k, v => [(k, v)]
  | (k', v') :: rest, k, v =>
      if k' = k then (k', v) :: rest else (k', v') :: dictSet rest k v

/-- Python `del d[k]` / `path.unlink()`: remove the entry for `k`, if present. -/
def removeKey {α β : Type} [DecidableEq α] : List (α × β) → α → List (α × β)
  | [], _ => []
  | (k', v') :: rest, k =>
      if k' = k then rest else (k', v') :: removeKey rest k

/-- Python `d.update(other)`: `d[k] = v` for each pair of `other` in order. -/
def dictUpdate {α β : Type} [DecidableEq α]
    (d : List (α × β)) (other : List (α × β)) : List (α × β) :=
  other.foldl (fun d p => dictSet d p.1 p.2) d

/-- The keys of a dict, in order. -/
def keysOf {α β : Type} (d : List (α × β)) : List α := d.map Prod.fst

/-! ## vjson/format.py -/

/-- The function `format.escape` restricted to strings: if the value is a string
beginning with the marker character, one more marker is prepended.
(The source also maps `escape` over mappings; the string case is the
one the escape round-trip is about.) -/
def escape (s : Str) : Str :=
  match s with
  | '$' :: rest => '$' :: '$' :: rest
  | _ => s

/-! ## Path arithmetic (pathlib as used by the decoder) -/

/-- Pathlib `Path.is_absolute()`: the path begins with the root indicator. -/
def isAbs : Str → Bool
  | '/' :: _ => true
  | _ => false

/-- Pathlib `Path(p).relative_to("/")` for the paths the decoder builds: strip the
single leading slash (used by `expand_relative` on an absolute-looking
legacy reference). -/
def stripRoot : Str → Str
  | '/' :: r => r
  | p => p

/-- The join `location / path` for a relative `path` (pathlib join). -/
def joinPath (a b : Str) : Str := a ++ '/' :: b

/-- Pathlib `Path(p).parent`: everything before the last slash; a bare file name
has parent `"."`; a root-level file has parent `"/"`. -/
def dirname (p : Str) : Str :=
  match p.reverse.dropWhile (fun c => c ≠ '/') with
  | [] => ['.']
  | ['/'] => ['/']
  | _ :: rest => rest.reverse

/-! ## vjson/decoder.py -/

/-- The control-sequence test `s[:2] in self._csm`: a two-character window
starting with the marker whose second character selects the handler.
The mapping keys are the six sequences of `VJSONDecoder.__init__`. -/
def csOf : Str → Option Char
  | c :: c' :: _ =>
      if c = '$' then
        if c' = '$' ∨ c' = '#' ∨ c' = 't' ∨ c' = '+' ∨ c' = '.' ∨ c' = '/'
        then some c' else none
      else none
  | _ => none

/-- The filesystem, as seen by the decoder: parsed JSON content per path. -/
abbrev FS := List (Str × J)

/-- Build the `ret` dict of `object_hook`: iterate the expanded pairs,
skip those whose value is the `IGNORE` sentinel (modelled as `none`), and
assign `ret[k] = v` for the rest.  The `ret.pop(CUSTOM_TYPE, None)` step
cannot fire in this model: a `"$t"` key always raises in
`expand_custom_type` because the type registry is modelled empty (no claim
involves a registered custom type). -/
def buildRet (acc : List (Str × V)) : List (Str × Option V) → List (Str × V)
  | [] => acc
  | (k, some v) :: rest => buildRet (dictSet acc k v) rest
  | (_, none) :: rest => buildRet acc rest

mutual

/-- Decoding a parsed JSON tree the way `json.load(..., cls=VJSONDecoder)`
does: every object, innermost first, is passed through
`VJSONDecoder.object_hook`; strings and other values elsewhere (in
particular inside arrays) are returned as parsed.  `fuel` bounds the
nesting of hook applications and of reference loads and only ever makes
the result `Err.fuelExhausted`; every theorem below supplies enough. -/
def decodeJ (fuel : Nat) (loc : Option Str) (fs : FS) (j : J) :
    FS × Except Err V :=
  match fuel with
  | 0 => (fs, .error .fuelExhausted)
  | f + 1 =>
      match j with
      | .str s => (fs, .ok (.str s))
      | .num n => (fs, .ok (.num n))
      | .bool b => (fs, .ok (.bool b))
      | .null => (fs, .ok .null)
      | .arr xs =>
          match decodeJList (f + 1) loc fs xs with
          | (fs', .ok vs) => (fs', .ok (.arr vs))
          | (fs', .error e) => (fs', .error e)
      | .obj ps =>
          match decodeJPairs (f + 1) loc fs ps with
          | (fs', .ok qs) => objectHook f loc fs' qs
          | (fs', .error e) => (fs', .error e)

termination_by (fuel, sizeOf j, 0)


/-- Element-wise decoding of an array literal (the parser hooks nested
objects inside arrays, but does nothing to their other elements). -/
def decodeJList (fuel : Nat) (loc : Option Str) (fs : FS) (xs : List J) :
    FS × Except Err (List V) :=
  match xs with
  | [] => (fs, .ok [])
  | x :: rest =>
      match decodeJ fuel loc fs x with
      | (fs', .ok v) =>
          match decodeJList fuel loc fs' rest with
          | (fs'', .ok vs) => (fs'', .ok (v :: vs))
          | (fs'', .error e) => (fs'', .error e)
      | (fs', .error e) => (fs', .error e)

termination_by (fuel, sizeOf xs, 0)


/-- Value-wise decoding of an object literal, producing the dict the
`json` module hands to `object_hook`. -/
def decodeJPairs (fuel : Nat) (loc : Option Str) (fs : FS)
    (ps : List (Str × J)) : FS × Except Err (List (Str × V)) :=
  match ps with
  | [] => (fs, .ok [])
  | (k, x) :: rest =>
      match decodeJ fuel loc fs x with
      | (fs', .ok v) =>
          match decodeJPairs fuel loc fs' rest with
          | (fs'', .ok qs) => (fs'', .ok ((k, v) :: qs))
          | (fs'', .error e) => (fs'', .error e)
      | (fs', .error e) => (fs', .error e)

termination_by (fuel, sizeOf ps, 0)


/-- The method `VJSONDecoder.object_hook`: expand every pair, drop the pairs whose
expansion is `IGNORE`, build the result dict. -/
def objectHook (fuel : Nat) (loc : Option Str) (fs : FS)
    (qs : List (Str × V)) : FS × Except Err V :=
  match expandPairs fuel loc fs qs with
  | (fs', .ok rs) => (fs', .ok (.obj (buildRet [] rs)))
  | (fs', .error e) => (fs', .error e)

termination_by (fuel, sizeOf qs, 4)


/-- The generator `(self.expand(pair) for pair in obj.items())`, consumed
in order; an exception raised by any expansion propagates. -/
def expandPairs (fuel : Nat) (loc : Option Str) (fs : FS)
    (qs : List (Str × V)) : FS × Except Err (List (Str × Option V)) :=
  match qs with
  | [] => (fs, .ok [])
  | (k, v) :: rest =>
      match expandPair fuel loc fs k v with
      | (fs', .ok r) =>
          match expandPairs fuel loc fs' rest with
          | (fs'', .ok rs) => (fs'', .ok (r :: rs))
          | (fs'', .error e) => (fs'', .error e)
      | (fs', .error e) => (fs', .error e)

termination_by (fuel, sizeOf qs, 3)


/-- The method `VJSONDecoder.expand`, key side: if the key starts with a control
sequence the handler is called with the key set.  `expand_escaped`
strips one marker off the key and keeps the value; `expand_comment`
and the three path handlers assert the key is `NOTHING` and so raise
`AssertionError`; `expand_custom_type` asserts the key is exactly
`"$t"` and then looks the value up in the (empty) registry, raising
`KeyError`. -/
def expandPair (fuel : Nat) (loc : Option Str) (fs : FS) (k : Str) (v : V) :
    FS × Except Err (Str × Option V) :=
  match csOf k with
  | some '$' => expandValue fuel loc fs (k.drop 1) v
  | some '#' => (fs, .error .assertionError)
  | some 't' =>
      if k = ['$', 't'] then (fs, .error .keyError)
      else (fs, .error .assertionError)
  | some _ => (fs, .error .assertionError)
  | none => expandValue fuel loc fs k v

termination_by (fuel, sizeOf v, 2)


/-- The method `VJSONDecoder.expand`, value side: a string value starting with a
control sequence is dispatched (`$$` unescape, `$#` ignore, `$t`
assertion failure since the key is `NOTHING`, `$+`/`$.`/`$/` reference
load); a dict value is passed through `object_hook` again; everything
else is kept. -/
def expandValue (fuel : Nat) (loc : Option Str) (fs : FS) (k : Str) (v : V) :
    FS × Except Err (Str × Option V) :=
  match v with
  | .str s =>
      match csOf s with
      | some '$' => (fs, .ok (k, some (.str (s.drop 1))))
      | some '#' => (fs, .ok (k, none))
      | some 't' => (fs, .error .assertionError)
      | some '+' =>
          match expandRef fuel loc fs (s.drop 2) with
          | (fs', .ok v') => (fs', .ok (k, some v'))
          | (fs', .error e) => (fs', .error e)
      | some '.' =>
          match expandRef fuel loc fs (stripRoot (s.drop 2)) with
          | (fs', .ok v') => (fs', .ok (k, some v'))
          | (fs', .error e) => (fs', .error e)
      | some '/' =>
          match expandRef fuel loc fs
              (if isAbs (s.drop 2) then s.drop 2 else '/' :: s.drop 2) with
          | (fs', .ok v') => (fs', .ok (k, some v'))
          | (fs', .error e) => (fs', .error e)
      | some _ => (fs, .ok (k, some (.str s)))
      | none => (fs, .ok (k, some (.str s)))
  | .obj ps =>
      match objectHook fuel loc fs ps with
      | (fs', .ok v') => (fs', .ok (k, some v'))
      | (fs', .error e) => (fs', .error e)
  | _ => (fs, .ok (k, some v))

termination_by (fuel, sizeOf v, 1)


/-- The method `VJSONDecoder.expand_object_reference` after stripping the two
control characters: an absolute path is loaded directly; a relative path
needs `self.location`, else `ValueError`. -/
def expandRef (fuel : Nat) (loc : Option Str) (fs : FS) (p : Str) :
    FS × Except Err V :=
  if isAbs p then loadCustomOrRemote fuel fs p
  else
    match loc with
    | none => (fs, .error .valueError)
    | some l => loadCustomOrRemote fuel fs (joinPath l p)

termination_by (fuel, 0, 1)


/-- The method `VJSONDecoder.load_custom_or_remote`.  A missing file is created
containing an empty object; then `RemoteMapping(remote_reference=path)`
is constructed — but `RemoteReferenceMixin.__init__` in
vjson/reference.py accepts only the keyword-only parameter `target`, so
the call raises `TypeError` before a mapping exists.  An existing file is
first recursively decoded (side effects and errors of that load
propagate), after which `RemoteMapping(remote_reference=path, **data)`
raises the same `TypeError`.  (The early return for a decoded
`VJSONSerializableMixin` cannot fire: the registry is modelled empty, so
any `"$t"` object fails earlier with `KeyError`.) -/
def loadCustomOrRemote (fuel : Nat) (fs : FS) (path : Str) :
    FS × Except Err V :=
  match fuel with
  | 0 => (fs, .error .fuelExhausted)
  | f + 1 =>
      match lookupC fs path with
      | none => (dictSet fs path (.obj []), .error .typeError)
      | some j =>
          match decodeJ f (some (dirname path)) fs j with
          | (fs', .ok _) => (fs', .error .typeError)
          | (fs', .error e) => (fs', .error e)

termination_by (fuel, 0, 0)


end

/-! ## vjson/reference.py and vjson/encoder.py -/

/-- The method `RemoteReferenceMixin.reference_str` with no `make_relative_to`
argument (the configuration of `dumps`, whose encoder gets
`location=None`): an absolute target serializes as the absolute control
sequence, a relative one as the legacy relative sequence with `os.sep`. -/
def referenceStr (target : Str) : Str :=
  if isAbs target then '$' :: '/' :: target
  else '$' :: '.' :: '/' :: target

mutual

/-- Serialization of a value tree to JSON, as `vjson.dumps` performs it:
the base `JSONEncoder` handles primitives, lists and dicts structurally,
and `VJSONEncoder.default` turns a `RemoteMapping` into its reference
string (`expand_remote_mappings` defaults to false; the
`write_remote_mappings` side effect rewrites the target file but does not
change the produced text, and no theorem below encodes a remote mapping,
so it is not threaded here).  Custom-typed objects are outside the
modelled value space, as in the decoder. -/
def encodeV : V → J
  | .str s => .str s
  | .num n => .num n
  | .bool b => .bool b
  | .null => .null
  | .arr xs => .arr (encodeVList xs)
  | .obj ps => .obj (encodeVPairs ps)
  | .remote target _ => .str (referenceStr target)

/-- Element-wise serialization of a list value. -/
def encodeVList : List V → List J
  | [] => []
  | x :: rest => encodeV x :: encodeVList rest

/-- Pair-wise serialization of a mapping value. -/
def encodeVPairs : List (Str × V) → List (Str × J)
  | [] => []
  | (k, v) :: rest => (k, encodeV v) :: encodeVPairs rest

end

/-! ## Stability: the fragment on which the object hook is the identity -/

/-- Python membership `k in d` for a dict. -/
def hasKey {α β : Type} [DecidableEq α] (d : List (α × β)) (k : α) : Bool :=
  (lookupC d k).isSome

/-- The keys of the dict are pairwise distinct (true of every dict
produced by the Python runtime). -/
def nodupKeys {α β : Type} [DecidableEq α] : List (α × β) → Bool
  | [] => true
  | (k, _) :: rest => !hasKey rest k && nodupKeys rest

mutual

/-- A decoded value is stable when no string in it, key or value, begins
with one of the six control sequences, its mappings have distinct keys,
and it contains no remote mappings (custom-typed objects are outside the
modelled value space).  On stable values every pass of
`VJSONDecoder.object_hook` is the identity. -/
def stableV : V → Bool
  | .str s => (csOf s).isNone
  | .num _ => true
  | .bool _ => true
  | .null => true
  | .arr xs => stableList xs
  | .obj ps => stablePairs ps && nodupKeys ps
  | .remote _ _ => false

/-- All elements stable. -/
def stableList : List V → Bool
  | [] => true
  | x :: rest => stableV x && stableList rest

/-- All keys control-free and all values stable. -/
def stablePairs : List (Str × V) → Bool
  | [] => true
  | (k, v) :: rest => (csOf k).isNone && stableV v && stablePairs rest

end

/-! ## Dict and hook lemmas -/

theorem hasKey_iff_mem {α β : Type} [DecidableEq α] (d : List (α × β)) (k : α) :
    hasKey d k = true ↔ k ∈ keysOf d := by
  induction d with
  | nil => simp [hasKey, lookupC, keysOf]
  | cons p rest ih =>
      obtain ⟨a, b⟩ := p
      unfold hasKey at ih ⊢
      simp only [lookupC, keysOf, List.map_cons, List.mem_cons]
      by_cases hak : a = k
      · subst hak
        rw [if_pos rfl]
        exact ⟨fun _ => Or.inl rfl, fun _ => rfl⟩
      · rw [if_neg hak]
        unfold keysOf at ih
        rw [ih]
        constructor
        · exact fun h => Or.inr h
        · rintro (h | h)
          · exact absurd h.symm hak
          · exact h

theorem nodupKeys_nodup {α β : Type} [DecidableEq α] (d : List (α × β))
    (h : nodupKeys d = true) : (keysOf d).Nodup := by
  induction d with
  | nil => simp [keysOf]
  | cons p rest ih =>
      obtain ⟨a, b⟩ := p
      simp only [nodupKeys, Bool.and_eq_true, Bool.not_eq_true'] at h
      have ha : a ∉ keysOf rest := fun hm =>
        by simp [(hasKey_iff_mem rest a).2 hm] at h
      simp only [keysOf, List.map_cons, List.nodup_cons]
      exact ⟨ha, ih h.2⟩

theorem dictSet_append {α β : Type} [DecidableEq α] (d : List (α × β)) (k : α) (v : β)
    (h : k ∉ keysOf d) : dictSet d k v = d ++ [(k, v)] := by
  induction d with
  | nil => simp [dictSet]
  | cons p rest ih =>
      obtain ⟨a, b⟩ := p
      simp only [keysOf, List.map_cons, List.mem_cons] at h
      push_neg at h
      simp [dictSet, Ne.symm h.1, ih h.2]

/-- The pairs that `buildRet` keeps: entries expanded to the ignore
sentinel dropped, the rest in order. -/
def sifted : List (Str × Option V) → List (Str × V)
  | [] => []
  | (k, some v) :: rest => (k, v) :: sifted rest
  | (_, none) :: rest => sifted rest

theorem sifted_map_some (ps : List (Str × V)) :
    sifted (ps.map fun p => (p.1, some p.2)) = ps := by
  induction ps with
  | nil => simp [sifted]
  | cons p rest ih => obtain ⟨a, b⟩ := p; simp [sifted, ih]

theorem buildRet_eq (rs : List (Str × Option V)) :
    ∀ acc : List (Str × V),
      (keysOf (sifted rs)).Nodup →
      (∀ k ∈ keysOf (sifted rs), k ∉ keysOf acc) →
      buildRet acc rs = acc ++ sifted rs := by
  induction rs with
  | nil => intro acc _ _; simp [buildRet, sifted]
  | cons p rest ih =>
      intro acc hnd hdisj
      obtain ⟨k, v⟩ := p
      cases v with
      | none =>
          simp only [sifted] at hnd hdisj ⊢
          simpa [buildRet] using ih acc hnd hdisj
      | some w =>
          simp only [sifted, keysOf, List.map_cons, List.nodup_cons] at hnd
      
          have hk : k ∉ keysOf acc := hdisj k
            (by simp only [sifted, keysOf, List.map_cons, List.mem_cons]
                exact Or.inl trivial)
          have hdk : ∀ k2 ∈ keysOf (sifted rest), k2 ∉ keysOf (acc ++ [(k, w)]) := by
            intro k2 h2
            have hne : k2 ≠ k := fun he => hnd.1 (he ▸ h2)
            have hna : k2 ∉ keysOf acc := hdisj k2
              (by simp only [sifted, keysOf, List.map_cons, List.mem_cons]
                  exact Or.inr h2)
            simp only [keysOf, List.map_append, List.mem_append, List.map_cons,
              List.map_nil, List.mem_cons, List.not_mem_nil, or_false]
            rintro (h1 | h1)
            · exact hna h1
            · exact hne h1
          simp only [buildRet]
          rw [dictSet_append acc k w hk]
          rw [ih (acc ++ [(k, w)]) hnd.2 hdk]
          simp [sifted]

theorem expandPairs_ptwise (fuel : Nat) (loc : Option Str)
    (ps : List (Str × V))
    (h : ∀ p ∈ ps, csOf p.1 = none ∧
        ∀ (fs : FS) (k : Str),
          expandValue fuel loc fs k p.2 = (fs, .ok (k, some p.2))) :
    ∀ fs : FS,
      expandPairs fuel loc fs ps = (fs, .ok (ps.map fun p => (p.1, some p.2))) := by
  induction ps with
  | nil => intro fs; simp [expandPairs]
  | cons p rest ih =>
      intro fs
      obtain ⟨k, v⟩ := p
      have hh := h (k, v) (List.mem_cons_self _ _)
      have ht : ∀ p ∈ rest, csOf p.1 = none ∧
          ∀ (fs : FS) (k : Str),
            expandValue fuel loc fs k p.2 = (fs, .ok (k, some p.2)) :=
        fun p hp => h p (List.mem_cons_of_mem _ hp)
      simp [expandPairs, expandPair, hh.1, hh.2 fs k, ih ht fs]

theorem objectHook_ptwise (fuel : Nat) (loc : Option Str)
    (ps : List (Str × V))
    (h : ∀ p ∈ ps, csOf p.1 = none ∧
        ∀ (fs : FS) (k : Str),
          expandValue fuel loc fs k p.2 = (fs, .ok (k, some p.2)))
    (hnd : (keysOf ps).Nodup) :
    ∀ fs : FS, objectHook fuel loc fs ps = (fs, .ok (.obj ps)) := by
  intro fs
  have hb : buildRet [] (ps.map fun p => (p.1, some p.2)) = ps := by
    rw [buildRet_eq _ [] (by rw [sifted_map_some]; exact hnd)
      (by intro k2 h2; simp [keysOf])]
    simp [sifted_map_some]
  simp [objectHook, expandPairs_ptwise fuel loc ps h fs, hb]

theorem v_sizeOf_pos (v : V) : 0 < sizeOf v := by
  cases v <;> simp

theorem stablePairs_mem (ps : List (Str × V)) (h : stablePairs ps = true) :
    ∀ p ∈ ps, (csOf p.1).isNone = true ∧ stableV p.2 = true := by
  induction ps with
  | nil => simp
  | cons q rest ih =>
      obtain ⟨a, b⟩ := q
      simp only [stablePairs, Bool.and_eq_true] at h
      intro p hp
      rcases List.mem_cons.1 hp with h1 | h1
      · subst h1; exact ⟨h.1.1, h.1.2⟩
      · exact ih h.2 p h1

theorem expandValue_stable_aux :
    ∀ (n : Nat) (v : V), sizeOf v ≤ n → stableV v = true →
      ∀ (fuel : Nat) (loc : Option Str) (fs : FS) (k : Str),
        expandValue fuel loc fs k v = (fs, .ok (k, some v)) := by
  intro n
  induction n with
  | zero => intro v hv _; exact absurd hv (by have := v_sizeOf_pos v; omega)
  | succ n ih =>
      intro v hv hst fuel loc fs k
      cases v with
      | str s =>
          have hcs : csOf s = none := by
            simpa [stableV, Option.isNone_iff_eq_none] using hst
          simp [expandValue, hcs]
      | num m => simp [expandValue]
      | bool b => simp [expandValue]
      | null => simp [expandValue]
      | arr xs => simp [expandValue]
      | remote t d => simp [stableV] at hst
      | obj ps =>
          simp only [stableV, Bool.and_eq_true] at hst
          have hpt : ∀ p ∈ ps, csOf p.1 = none ∧
              ∀ (fs2 : FS) (k2 : Str),
                expandValue fuel loc fs2 k2 p.2 = (fs2, .ok (k2, some p.2)) := by
            intro p hp
            have hkv := stablePairs_mem ps hst.1 p hp
            refine ⟨by simpa [Option.isNone_iff_eq_none] using hkv.1, ?_⟩
            intro fs2 k2
            have hsz : sizeOf p.2 ≤ n := by
              have h1 := List.sizeOf_lt_of_mem hp
              obtain ⟨a, b⟩ := p
              simp at h1 hv ⊢
              omega
            exact ih p.2 hsz hkv.2 fuel loc fs2 k2
          have hobj := objectHook_ptwise fuel loc ps hpt
            (nodupKeys_nodup ps hst.2) fs
          simp [expandValue, hobj]

theorem decodeJList_enc (fuel : Nat) (loc : Option Str) (xs : List V)
    (h : ∀ x ∈ xs, ∀ fs : FS,
        decodeJ (fuel + 1) loc fs (encodeV x) = (fs, .ok x)) :
    ∀ fs : FS,
      decodeJList (fuel + 1) loc fs (encodeVList xs) = (fs, .ok xs) := by
  induction xs with
  | nil => intro fs; simp [encodeVList, decodeJList]
  | cons x rest ih =>
      intro fs
      simp [encodeVList, decodeJList, h x (List.mem_cons_self _ _) fs,
        ih fun y hy => h y (List.mem_cons_of_mem _ hy)]

theorem decodeJPairs_enc (fuel : Nat) (loc : Option Str)
    (ps : List (Str × V))
    (h : ∀ p ∈ ps, ∀ fs : FS,
        decodeJ (fuel + 1) loc fs (encodeV p.2) = (fs, .ok p.2)) :
    ∀ fs : FS,
      decodeJPairs (fuel + 1) loc fs (encodeVPairs ps) = (fs, .ok ps) := by
  induction ps with
  | nil => intro fs; simp [encodeVPairs, decodeJPairs]
  | cons p rest ih =>
      intro fs
      obtain ⟨k, v⟩ := p
      simp [encodeVPairs, decodeJPairs, h (k, v) (List.mem_cons_self _ _) fs,
        ih fun q hq => h q (List.mem_cons_of_mem _ hq)]

theorem decodeJ_enc_stable :
    ∀ (n : Nat) (x : V), sizeOf x ≤ n → stableV x = true →
      ∀ (fuel : Nat) (loc : Option Str) (fs : FS),
        decodeJ (fuel + 1) loc fs (encodeV x) = (fs, .ok x) := by
  intro n
  induction n with
  | zero => intro x hx _; exact absurd hx (by have := v_sizeOf_pos x; omega)
  | succ n ih =>
      intro x hx hst fuel loc fs
      cases x with
      | str s => simp [encodeV, decodeJ]
      | num m => simp [encodeV, decodeJ]
      | bool b => simp [encodeV, decodeJ]
      | null => simp [encodeV, decodeJ]
      | remote t d => simp [stableV] at hst
      | arr xs =>
          have hel : ∀ y ∈ xs, ∀ fs2 : FS,
              decodeJ (fuel + 1) loc fs2 (encodeV y) = (fs2, .ok y) := by
            intro y hy fs2
            have hsz : sizeOf y ≤ n := by
              have h1 := List.sizeOf_lt_of_mem hy
              simp at hx
              omega
            have hsy : stableV y = true := by
              clear ih hx
              induction xs with
              | nil => simp at hy
              | cons z rest ihz =>
                  simp only [stableV, stableList, Bool.and_eq_true] at hst
                  rcases List.mem_cons.1 hy with h2 | h2
                  · exact h2 ▸ hst.1
                  · exact ihz (by simpa [stableV] using hst.2) h2
            exact ih y hsz hsy fuel loc fs2
          simp [encodeV, decodeJ, decodeJList_enc fuel loc xs hel fs]
      | obj ps =>
          simp only [stableV, Bool.and_eq_true] at hst
          have hsizes : ∀ p ∈ ps, sizeOf p.2 ≤ n := by
            intro p hp
            have h1 := List.sizeOf_lt_of_mem hp
            obtain ⟨a, b⟩ := p
            simp at h1 hx ⊢
            omega
          have hdec : ∀ p ∈ ps, ∀ fs2 : FS,
              decodeJ (fuel + 1) loc fs2 (encodeV p.2) = (fs2, .ok p.2) := by
            intro p hp fs2
            exact ih p.2 (hsizes p hp) (stablePairs_mem ps hst.1 p hp).2
              fuel loc fs2
          have hpt : ∀ p ∈ ps, csOf p.1 = none ∧
              ∀ (fs2 : FS) (k2 : Str),
                expandValue fuel loc fs2 k2 p.2 = (fs2, .ok (k2, some p.2)) := by
            intro p hp
            have hkv := stablePairs_mem ps hst.1 p hp
            exact ⟨by simpa [Option.isNone_iff_eq_none] using hkv.1,
              fun fs2 k2 => expandValue_stable_aux (sizeOf p.2) p.2 le_rfl
                hkv.2 fuel loc fs2 k2⟩
          have hobj := objectHook_ptwise fuel loc ps hpt
            (nodupKeys_nodup ps hst.2) fs
          simp [encodeV, decodeJ, decodeJPairs_enc fuel loc ps hdec fs, hobj]

/-- The decode-after-encode identity on stable value trees: the shared
engine behind the round-trip results. -/
theorem decodeJ_encodeV_of_stable (x : V) (h : stableV x = true)
    (fuel : Nat) (loc : Option Str) (fs : FS) :
    decodeJ (fuel + 1) loc fs (encodeV x) = (fs, .ok x) :=
  decodeJ_enc_stable (sizeOf x) x le_rfl h fuel loc fs

/-! ## Small reduction facts for escape and the control-sequence test -/

theorem escape_other (c : Char) (t : Str) (h : c ≠ '$') :
    escape (c :: t) = c :: t := by
  unfold escape
  split
  · next rest heq =>
      injection heq with h1 _
      exact absurd h1 h
  · rfl

theorem csOf_single (c : Char) : csOf [c] = none := rfl

theorem csOf_other (c c2 : Char) (t : Str) (h : c ≠ '$') :
    csOf (c :: c2 :: t) = none := by
  simp [csOf, h]

/-! ## Claim theorems on the codec -/

/-- Claim C1: escaping then decoding is the identity.  For every string
`s`, a document pair whose value is `escape s` decodes back to `s`: the
escape function of vjson/format.py prepends one marker to any string
beginning with the marker, and the decoder (via `expand_escaped`,
dispatched on the `$$` control sequence in `expand`) strips exactly one
marker back off, so the composition is the identity — including when `s`
begins with one or more markers, and when it begins with another control
sequence, which the escape hides behind `$$`. -/
theorem C1_escape_decode_identity (s : Str) (fuel : Nat) (loc : Option Str)
    (fs : FS) :
    decodeJ (fuel + 1) loc fs (.obj [(['k'], .str (escape s))]) =
      (fs, .ok (.obj [(['k'], .str s)])) := by
  have base : ∀ x : Str, decodeJ (fuel + 1) loc fs (.obj [(['k'], .str x)]) =
      objectHook fuel loc fs [(['k'], .str x)] := by
    intro x
    simp [decodeJ, decodeJPairs]
  rcases s with _ | ⟨c, t⟩
  · rw [show escape [] = [] from rfl, base]
    simp [objectHook, expandPairs, expandPair, expandValue, csOf, buildRet,
      dictSet]
  · by_cases hc : c = '$'
    · subst hc
      rw [show escape ('$' :: t) = '$' :: '$' :: t from rfl, base]
      simp [objectHook, expandPairs, expandPair, expandValue, csOf, buildRet,
        dictSet]
    · rw [escape_other c t hc, base]
      rcases t with _ | ⟨c2, t2⟩
      · simp [objectHook, expandPairs, expandPair, expandValue, csOf, buildRet,
          dictSet]
      · simp [objectHook, expandPairs, expandPair, expandValue,
          csOf_other c c2 t2 hc, csOf_single, buildRet, dictSet]

/-- Strings inside an array literal decode verbatim, element by element. -/
theorem decodeJList_strings (ss : List Str) (fuel : Nat) (loc : Option Str)
    (fs : FS) :
    decodeJList (fuel + 1) loc fs (ss.map .str) = (fs, .ok (ss.map V.str)) := by
  induction ss with
  | nil => simp [decodeJList]
  | cons s rest ih => simp [decodeJList, decodeJ, ih]

/-- Claim C10: control-sequence expansion applies only to object keys and
to strings appearing directly as object-member values.  Every string
element of a JSON array is returned verbatim by the decoder — not
unescaped, not resolved as a reference, not dropped as an ignore marker —
both for a top-level array and for an array sitting as an object-member
value, whatever reserved prefixes the strings carry. -/
theorem C10_array_strings_verbatim :
    (∀ (ss : List Str) (fuel : Nat) (loc : Option Str) (fs : FS),
        decodeJ (fuel + 1) loc fs (.arr (ss.map .str)) =
          (fs, .ok (.arr (ss.map V.str)))) ∧
    (∀ (ss : List Str) (fuel : Nat) (loc : Option Str) (fs : FS),
        decodeJ (fuel + 1) loc fs (.obj [(['a'], .arr (ss.map .str))]) =
          (fs, .ok (.obj [(['a'], .arr (ss.map V.str))]))) := by
  constructor
  · intro ss fuel loc fs
    simp [decodeJ, decodeJList_strings ss fuel loc fs]
  · intro ss fuel loc fs
    simp [decodeJ, decodeJPairs, decodeJList_strings ss fuel loc fs,
      objectHook, expandPairs, expandPair, expandValue, csOf_single,
      buildRet, dictSet]

/-- Claim C4, counterexample: the encoder never applies `escape` (the
base `JSONEncoder` serializes strings verbatim and `VJSONEncoder.default`
is only called for non-JSON types), so a tree holding the string
consisting of two marker characters round-trips to the single marker:
decoding the encoded tree yields a different tree. -/
theorem C4_counterexample :
    decodeJ 2 none [] (encodeV (.obj [(['a'], .str ['$', '$'])])) =
      ([], .ok (.obj [(['a'], .str ['$'])])) ∧
    (decodeJ 2 none [] (encodeV (.obj [(['a'], .str ['$', '$'])]))).2 ≠
      .ok (.obj [(['a'], .str ['$', '$'])]) := by
  have h : decodeJ 2 none [] (encodeV (.obj [(['a'], .str ['$', '$'])])) =
      ([], .ok (.obj [(['a'], .str ['$'])])) := by
    simp [encodeV, encodeVPairs, decodeJ, decodeJPairs, objectHook,
      expandPairs, expandPair, expandValue, csOf, buildRet, dictSet]
  refine ⟨h, ?_⟩
  rw [h]
  simp

/-- Claim C4, amended: the decode-after-encode round trip holds for every
value tree built from JSON primitives, sequences and objects in which no
object key and no string begins with a control sequence and object keys
are distinct (`stableV`); trees containing remote mappings are excluded
because any reference load raises `TypeError` (the
`remote_reference`/`target` keyword mismatch of claim C3), and strings
beginning with the marker are excluded because the encoder never escapes
them (see the counterexample). -/
theorem C4_roundtrip_stable (x : V) (h : stableV x = true) (fuel : Nat)
    (loc : Option Str) (fs : FS) :
    decodeJ (fuel + 1) loc fs (encodeV x) = (fs, .ok x) :=
  decodeJ_encodeV_of_stable x h fuel loc fs

/-- Witness for C4: the amended round trip at a concrete stable tree. -/
theorem C4_roundtrip_stable_witness :
    stableV (.obj [(['a'], .str ['b']), (['c'], .arr [.num 3, .null])]) = true ∧
    decodeJ 1 none []
        (encodeV (.obj [(['a'], .str ['b']), (['c'], .arr [.num 3, .null])])) =
      ([], .ok (.obj [(['a'], .str ['b']), (['c'], .arr [.num 3, .null])])) := by
  have hs : stableV (.obj [(['a'], .str ['b']), (['c'], .arr [.num 3, .null])]) = true := by
    simp [stableV, stablePairs, stableList, nodupKeys, hasKey, lookupC, csOf]
  exact ⟨hs, C4_roundtrip_stable _ hs 0 none []⟩


/-! ## Claim C7: ignore-marker elimination -/

/-- One member of a document object, for the ignore-elimination claim:
either an ignore entry (the `$#` marker followed by arbitrary hint text)
or an ordinary stable value. -/
def entryJ : Str ⊕ V → J
  | .inl txt => .str ('$' :: '#' :: txt)
  | .inr w => encodeV w

/-- What a member parses to before the hook runs. -/
def entryV : Str ⊕ V → V
  | .inl txt => .str ('$' :: '#' :: txt)
  | .inr w => w

/-- What a member expands to in `expand`: the ignore sentinel or the
value. -/
def entryOpt : Str ⊕ V → Option V
  | .inl _ => none
  | .inr w => some w

/-- The members of the document object, serialized. -/
def entriesJ : List (Str × (Str ⊕ V)) → List (Str × J)
  | [] => []
  | (k, e) :: rest => (k, entryJ e) :: entriesJ rest

/-- The members of the document object, parsed. -/
def entriesV : List (Str × (Str ⊕ V)) → List (Str × V)
  | [] => []
  | (k, e) :: rest => (k, entryV e) :: entriesV rest

/-- The members of the document object, pair-expanded. -/
def entriesOpt : List (Str × (Str ⊕ V)) → List (Str × Option V)
  | [] => []
  | (k, e) :: rest => (k, entryOpt e) :: entriesOpt rest

/-- The document object built from the given members. -/
def docOf (qs : List (Str × (Str ⊕ V))) : J := .obj (entriesJ qs)

/-- The members that survive decoding: the non-ignored pairs, in order. -/
def keptOf : List (Str × (Str ⊕ V)) → List (Str × V)
  | [] => []
  | (_, .inl _) :: rest => keptOf rest
  | (k, .inr w) :: rest => (k, w) :: keptOf rest

/-- Stability of a member: ignore entries are always admissible, value
entries must be stable. -/
def stableEntry : Str ⊕ V → Bool
  | .inl _ => true
  | .inr w => stableV w

theorem nodupKeys_of_nodup {α β : Type} [DecidableEq α] (d : List (α × β))
    (h : (keysOf d).Nodup) : nodupKeys d = true := by
  induction d with
  | nil => rfl
  | cons p rest ih =>
      obtain ⟨a, b⟩ := p
      simp only [keysOf, List.map_cons, List.nodup_cons] at h
      have hhk : hasKey rest a = false := by
        rw [← Bool.not_eq_true, hasKey_iff_mem]
        exact h.1
      simp [nodupKeys, hhk, ih h.2]

theorem decodeJPairs_entries (fuel : Nat) (loc : Option Str)
    (qs : List (Str × (Str ⊕ V)))
    (hw : ∀ p ∈ qs, stableEntry p.2 = true) :
    ∀ fs : FS,
      decodeJPairs (fuel + 1) loc fs (entriesJ qs) = (fs, .ok (entriesV qs)) := by
  induction qs with
  | nil => intro fs; simp [entriesJ, entriesV, decodeJPairs]
  | cons p rest ih =>
      intro fs
      obtain ⟨k, e⟩ := p
      have hrest := ih fun q hq => hw q (List.mem_cons_of_mem _ hq)
      cases e with
      | inl txt =>
          simp [entriesJ, entriesV, entryJ, entryV, decodeJPairs, decodeJ,
            hrest fs]
      | inr w =>
          have hs : stableV w = true := by
            simpa [stableEntry] using hw (k, .inr w) (List.mem_cons_self _ _)
          simp [entriesJ, entriesV, entryJ, entryV, decodeJPairs,
            decodeJ_encodeV_of_stable w hs fuel loc fs, hrest fs]

theorem expandPairs_entries (fuel : Nat) (loc : Option Str)
    (qs : List (Str × (Str ⊕ V)))
    (hk : ∀ p ∈ qs, csOf p.1 = none)
    (hw : ∀ p ∈ qs, stableEntry p.2 = true) :
    ∀ fs : FS,
      expandPairs fuel loc fs (entriesV qs) = (fs, .ok (entriesOpt qs)) := by
  induction qs with
  | nil => intro fs; simp [entriesV, entriesOpt, expandPairs]
  | cons p rest ih =>
      intro fs
      obtain ⟨k, e⟩ := p
      have hkk : csOf k = none := hk (k, e) (List.mem_cons_self _ _)
      have hrest := ih (fun q hq => hk q (List.mem_cons_of_mem _ hq))
        (fun q hq => hw q (List.mem_cons_of_mem _ hq))
      cases e with
      | inl txt =>
          have hcs : csOf ('$' :: '#' :: txt) = some '#' := by simp [csOf]
          simp [entriesV, entriesOpt, entryV, entryOpt, expandPairs,
            expandPair, hkk, expandValue, hcs, hrest fs]
      | inr w =>
          have hs : stableV w = true := by
            simpa [stableEntry] using hw (k, .inr w) (List.mem_cons_self _ _)
          simp [entriesV, entriesOpt, entryV, entryOpt, expandPairs,
            expandPair, hkk,
            expandValue_stable_aux (sizeOf w) w le_rfl hs fuel loc fs k,
            hrest fs]

theorem sifted_entries (qs : List (Str × (Str ⊕ V))) :
    sifted (entriesOpt qs) = keptOf qs := by
  induction qs with
  | nil => simp [entriesOpt, sifted, keptOf]
  | cons p rest ih =>
      obtain ⟨k, e⟩ := p
      cases e with
      | inl txt => simpa [entriesOpt, entryOpt, sifted, keptOf] using ih
      | inr w => simpa [entriesOpt, entryOpt, sifted, keptOf] using ih

theorem keysOf_keptOf_sublist (qs : List (Str × (Str ⊕ V))) :
    List.Sublist (keysOf (keptOf qs)) (keysOf qs) := by
  induction qs with
  | nil => simp [keptOf, keysOf]
  | cons p rest ih =>
      obtain ⟨k, e⟩ := p
      cases e with
      | inl txt =>
          simp only [keptOf, keysOf, List.map_cons]
          exact List.Sublist.trans ih (List.sublist_cons_self _ _)
      | inr w =>
          simp only [keptOf, keysOf, List.map_cons]
          exact List.Sublist.cons₂ k ih

theorem notMem_keptOf (qs : List (Str × (Str ⊕ V)))
    (hnd : (keysOf qs).Nodup) (k : Str) (t : Str)
    (hmem : (k, Sum.inl t) ∈ qs) : k ∉ keysOf (keptOf qs) := by
  induction qs with
  | nil => simp at hmem
  | cons p rest ih =>
      obtain ⟨k2, e⟩ := p
      simp only [keysOf, List.map_cons, List.nodup_cons] at hnd
      rcases List.mem_cons.1 hmem with h1 | h1
      · cases h1
        simp only [keptOf]
        intro hc
        exact hnd.1 ((keysOf_keptOf_sublist rest).subset hc)
      · have hk2k : k2 ≠ k := by
          intro he
          exact hnd.1 (he ▸ (List.mem_map.2 ⟨(k, .inl t), h1, rfl⟩))
        cases e with
        | inl t2 =>
            simp only [keptOf]
            exact ih hnd.2 h1
        | inr w =>
            simp only [keptOf, keysOf, List.map_cons, List.mem_cons]
            rintro (hc | hc)
            · exact hk2k hc.symm
            · exact ih hnd.2 h1 hc

theorem stableV_keptOf (qs : List (Str × (Str ⊕ V)))
    (hk : ∀ p ∈ qs, csOf p.1 = none)
    (hnd : (keysOf qs).Nodup)
    (hw : ∀ p ∈ qs, stableEntry p.2 = true) :
    stableV (.obj (keptOf qs)) = true := by
  have hsp : ∀ qs2 : List (Str × (Str ⊕ V)),
      (∀ p ∈ qs2, csOf p.1 = none) → (∀ p ∈ qs2, stableEntry p.2 = true) →
      stablePairs (keptOf qs2) = true := by
    intro qs2
    induction qs2 with
    | nil => intro _ _; rfl
    | cons p rest ih =>
        intro hk2 hw2
        obtain ⟨k2, e⟩ := p
        have hr := ih (fun q hq => hk2 q (List.mem_cons_of_mem _ hq))
          (fun q hq => hw2 q (List.mem_cons_of_mem _ hq))
        cases e with
        | inl t2 => simpa [keptOf] using hr
        | inr w =>
            have h1 : csOf k2 = none := hk2 (k2, .inr w) (List.mem_cons_self _ _)
            have h2 : stableV w = true := by
              simpa [stableEntry] using hw2 (k2, .inr w) (List.mem_cons_self _ _)
            simp [keptOf, stablePairs, h1, h2, hr]
  have hnd2 : nodupKeys (keptOf qs) = true :=
    nodupKeys_of_nodup _ (hnd.sublist (keysOf_keptOf_sublist qs))
  simp [stableV, hsp qs hk hw, hnd2]

/-- Claim C7, counterexample to idempotence as stated: a document whose
sole value is the once-escaped ignore marker decodes to an object whose
value is the ignore marker itself (the escape is stripped); but encoding
that object and decoding again drops the pair entirely, so the second
decode differs from the first.  The decoder-encoder pair is not
idempotent on arbitrary document objects because decoded strings are not
re-escaped on encode. -/
theorem C7_counterexample :
    decodeJ 2 none [] (.obj [(['a'], .str ['$', '$', '#', 'h'])]) =
      ([], .ok (.obj [(['a'], .str ['$', '#', 'h'])])) ∧
    decodeJ 2 none [] (encodeV (.obj [(['a'], .str ['$', '#', 'h'])])) =
      ([], .ok (.obj [])) ∧
    (V.obj [] : V) ≠ .obj [(['a'], .str ['$', '#', 'h'])] := by
  refine ⟨?_, ?_, by simp⟩
  · simp [decodeJ, decodeJPairs, objectHook, expandPairs, expandPair,
      expandValue, csOf, buildRet, dictSet]
  · simp [encodeV, encodeVPairs, decodeJ, decodeJPairs, objectHook,
      expandPairs, expandPair, expandValue, csOf, buildRet, dictSet]

/-- Claim C7, amended: for a document object with distinct, control-free
keys whose members are each either an ignore entry (a string value with
the `$#` marker) or a stable value tree, decoding drops exactly the
ignore entries — their keys are absent from the result — and the
decode-encode-decode composition is the identity on the reduced object.
The unrestricted idempotence of the original claim fails because decoded
strings are not re-escaped on encode (see the counterexample). -/
theorem C7_ignore_elimination (qs : List (Str × (Str ⊕ V))) (fuel : Nat)
    (loc : Option Str) (fs : FS)
    (hk : ∀ p ∈ qs, csOf p.1 = none)
    (hnd : (keysOf qs).Nodup)
    (hw : ∀ p ∈ qs, stableEntry p.2 = true) :
    decodeJ (fuel + 1) loc fs (docOf qs) = (fs, .ok (.obj (keptOf qs))) ∧
    (∀ p ∈ qs, (∃ t, p.2 = .inl t) → hasKey (keptOf qs) p.1 = false) ∧
    decodeJ (fuel + 1) loc fs (encodeV (.obj (keptOf qs))) =
      (fs, .ok (.obj (keptOf qs))) := by
  refine ⟨?_, ?_, ?_⟩
  · have hb : buildRet [] (entriesOpt qs) = keptOf qs := by
      rw [buildRet_eq _ []
        (by rw [sifted_entries]; exact hnd.sublist (keysOf_keptOf_sublist qs))
        (by intro k2 h2; simp [keysOf])]
      simp [sifted_entries]
    simp [docOf, decodeJ, decodeJPairs_entries fuel loc qs hw fs,
      objectHook, expandPairs_entries fuel loc qs hk hw fs, hb]
  · rintro ⟨k, e⟩ hmem ⟨t, ht⟩
    cases ht
    rw [← Bool.not_eq_true, hasKey_iff_mem]
    exact notMem_keptOf qs hnd k t hmem
  · exact decodeJ_encodeV_of_stable _ (stableV_keptOf qs hk hnd hw) fuel loc fs

/-- Witness for C7: a concrete document with one kept and one ignored
member. -/
theorem C7_ignore_elimination_witness :
    decodeJ 1 none []
        (docOf [(['a'], .inr (.str ['x'])), (['b'], .inl ['h'])]) =
      ([], .ok (.obj [(['a'], .str ['x'])])) ∧
    hasKey (keptOf [(['a'], Sum.inr (V.str ['x'])), (['b'], .inl ['h'])]) ['b']
      = false := by
  have h := C7_ignore_elimination
    [(['a'], .inr (.str ['x'])), (['b'], .inl ['h'])] 0 none []
    (by intro p hp
        rcases List.mem_cons.1 hp with h1 | h1
        · subst h1; rfl
        · rcases List.mem_cons.1 h1 with h2 | h2
          · subst h2; rfl
          · simp at h2)
    (by simp [keysOf])
    (by intro p hp
        rcases List.mem_cons.1 hp with h1 | h1
        · subst h1; simp [stableEntry, stableV, csOf]
        · rcases List.mem_cons.1 h1 with h2 | h2
          · subst h2; rfl
          · simp at h2)
  refine ⟨?_, ?_⟩
  · have h1 := h.1
    rwa [show keptOf [(['a'], Sum.inr (V.str ['x'])), (['b'], Sum.inl ['h'])] =
        [(['a'], V.str ['x'])] from rfl] at h1
  · exact h.2.1 (['b'], .inl ['h'])
      (List.mem_cons_of_mem _ (List.mem_cons_self _ _)) ⟨['h'], rfl⟩

/-! ## Claim C3: reference to a missing file -/

/-- Claim C3 (recording the code defect): decoding a document holding a
relative reference to a nonexistent path does create the target file
containing the empty object — the scaffolding side effect the claim
describes — but the decode then fails with `TypeError` instead of
returning an empty `RemoteMapping`: `load_custom_or_remote` passes the
keyword `remote_reference` while `RemoteReferenceMixin.__init__`
(vjson/reference.py) accepts only the keyword-only parameter `target`. -/
theorem C3_missing_reference_creates_file_then_raises :
    decodeJ 2 (some ['r']) []
        (.obj [(['a'], .str ('$' :: '+' :: "sub.v.json".toList))]) =
      ([(joinPath ['r'] "sub.v.json".toList, .obj [])], .error .typeError) := by
  simp [decodeJ, decodeJPairs, objectHook, expandPairs, expandPair,
    expandValue, expandRef, loadCustomOrRemote, csOf, buildRet, dictSet,
    isAbs, lookupC, joinPath]

/-! ## override/: the override object model

The tree of `OverrideMixin` objects: `TemplateOverride` (template.py),
`JSONOverrideConfig` and `TutorOverrideConfig` (config.py),
`OverrideSequence` (sequence.py), `OverrideModule` (module.py) and
`OverrideReference` (reference.py).  Each constructor carries the mixin
state `vt` (the `_target` attribute set by
`VJSONSerializableMixin.from_object` when an object was loaded from a
`RemoteMapping`; `none` for objects built in memory).  A config object's
`overrides` mapping is carried as its list of entries. -/
inductive Override : Type where
  | template (vt : Option Str) (src : Str) (effSrc : Option Str) (dest : Str)
  | jsonConfig (vt : Option Str) (ov : List (Str × V)) (target : Str)
  | tutorConfig (vt : Option Str) (ov : List (Str × V)) (target : Str)
  | sequence (vt : Option Str) (overrides : List Override)
  | module (vt : Option Str) (info : List (Str × V)) (overrides : List Override)
  | reference (vt : Option Str) (inner : Override)

/-- The method `VJSONSerializableMixin.to_object`, base case: a `RemoteMapping` with
the remembered target when `_target` is set, else a plain dict; in both
cases holding the type tag under the reserved key. -/
def wrapMapping (vt : Option Str) (ps : List (Str × V)) : V :=
  match vt with
  | some t => .remote t ps
  | none => .obj ps

mutual

/-- The `to_object` methods of the override classes: the base mapping
with the reserved type-tag key first, then each class's own fields in
the order of its `update` call. -/
def toObject : Override → V
  | .template vt src _ dest =>
      wrapMapping vt [(['$', 't'], .str "template".toList),
        ("src".toList, .str src), ("dest".toList, .str dest)]
  | .jsonConfig vt ov target =>
      wrapMapping vt [(['$', 't'], .str "json".toList),
        ("overrides".toList, .obj ov), ("target".toList, .str target)]
  | .tutorConfig vt ov target =>
      wrapMapping vt [(['$', 't'], .str "tutor".toList),
        ("overrides".toList, .obj ov), ("target".toList, .str target)]
  | .sequence vt cs =>
      wrapMapping vt [(['$', 't'], .str "override-sequence".toList),
        ("overrides".toList, .arr (toObjectList cs))]
  | .module vt info cs =>
      wrapMapping vt [(['$', 't'], .str "override-module".toList),
        ("overrides".toList, .arr (toObjectList cs)),
        ("info".toList, .obj info)]
  | .reference vt inner =>
      wrapMapping vt [(['$', 't'], .str "override-reference".toList),
        ("override".toList, toObject inner)]

/-- The list `[o.to_object() for o in overrides]`. -/
def toObjectList : List Override → List V
  | [] => []
  | c :: rest => toObject c :: toObjectList rest

end

mutual

/-- Python `==` on decoded values, as used by `OverrideMixin.match`:
structural on JSON data; a `RemoteMapping` compares by object identity
(neither `WrappedDict` nor its abstract bases define `__eq__`), so two
distinct mapping objects — the only case arising here — are unequal. -/
def vbeq : V → V → Bool
  | .str a, .str b => a = b
  | .num a, .num b => a = b
  | .bool a, .bool b => a = b
  | .null, .null => true
  | .arr a, .arr b => vbeqList a b
  | .obj a, .obj b => vbeqPairs a b
  | _, _ => false

/-- Element-wise list equality. -/
def vbeqList : List V → List V → Bool
  | [], [] => true
  | a :: as2, b :: bs2 => vbeq a b && vbeqList as2 bs2
  | _, _ => false

/-- Entry-wise dict equality (the modelled dicts are in insertion order;
the claims compare dicts built identically, for which entry order
agrees). -/
def vbeqPairs : List (Str × V) → List (Str × V) → Bool
  | [], [] => true
  | (k, a) :: as2, (k2, b) :: bs2 => k = k2 && vbeq a b && vbeqPairs as2 bs2
  | _, _ => false

end

/-- The entries of a mapping-valued `to_object` result, for attribute
lookup in `match`. -/
def objEntries : V → List (Str × V)
  | .obj ps => ps
  | .remote _ ps => ps
  | _ => []

/-- The method `OverrideMixin.match`: every given attribute pair is present in
`to_object()` with an equal value.  `OverrideReference.match` forwards
to the referenced override. -/
def matchO (pairs : List (Str × V)) : Override → Bool
  | .reference _ inner => matchO pairs inner
  | o => pairs.all fun p =>
      match lookupC (objEntries (toObject o)) p.1 with
      | some v => vbeq v p.2
      | none => false

/-! ## misc.walk_dict / flatten_dict and the claims maps -/

/-- The function `misc.walk_dict`: yield, in iteration order, the key path and value
of every terminal entry, descending into values that are mappings
(plain dicts and `RemoteMapping` instances alike). -/
def walkDict (pre : List Str) : List (Str × V) → List (List Str × V)
  | [] => []
  | (k, v) :: rest =>
      (match v with
       | .obj ps => walkDict (pre ++ [k]) ps
       | .remote _ ps => walkDict (pre ++ [k]) ps
       | _ => [(pre ++ [k], v)]) ++ walkDict pre rest

/-- The function `misc.flatten_dict` with `replace_values=True` as used by
`OverrideConfig.claims`: every terminal key path of the overrides
mapping, prefixed with the target, mapped to the override instance
itself. -/
def flattenClaims (target : Str) (ov : List (Str × V)) (self : Override) :
    List (List Str × Override) :=
  dictUpdate [] ((walkDict [target] ov).map fun kv => (kv.1, self))

mutual

/-- The `claims` properties: a `TemplateOverride` claims the one-tuple of
its destination; a config override claims every flattened key path of
its overrides prefixed with its target; a sequence (and a module, which
inherits the property) folds `claim_map.update(child.claims)` over its
children in order; a reference forwards to the referenced override. -/
def claimsO : Override → List (List Str × Override)
  | .template vt src es dest => [([dest], .template vt src es dest)]
  | .jsonConfig vt ov target =>
      flattenClaims target ov (.jsonConfig vt ov target)
  | .tutorConfig vt ov target =>
      flattenClaims target ov (.tutorConfig vt ov target)
  | .sequence _ cs => claimsAux [] cs
  | .module _ _ cs => claimsAux [] cs
  | .reference _ inner => claimsO inner

/-- The `claim_map` accumulation of `OverrideSequence.claims`. -/
def claimsAux (acc : List (List Str × Override)) :
    List Override → List (List Str × Override)
  | [] => acc
  | c :: rest => claimsAux (dictUpdate acc (claimsO c)) rest

end

/-! ## Dict update lemmas for last-writer-wins -/

/-- Explicit option fallback, written as a plain function. -/
def orElseO {β : Type} (a b : Option β) : Option β :=
  match a with
  | some v => some v
  | none => b

theorem orElseO_none {β : Type} (a : Option β) : orElseO a none = a := by
  cases a <;> rfl

theorem lookupC_dictSet {α β : Type} [DecidableEq α] (d : List (α × β))
    (k k2 : α) (v : β) :
    lookupC (dictSet d k v) k2 = if k = k2 then some v else lookupC d k2 := by
  induction d with
  | nil =>
      by_cases h : k = k2 <;> simp [dictSet, lookupC, h]
  | cons p rest ih =>
      obtain ⟨a, b⟩ := p
      by_cases hak : a = k
      · subst hak
        by_cases h : a = k2 <;> simp [dictSet, lookupC, h]
      · by_cases h : a = k2
        · subst h
          have hka : ¬k = a := fun he => hak he.symm
          simp [dictSet, hak, lookupC, hka]
        · simp [dictSet, hak, lookupC, h, ih]

theorem lookupC_eq_none_of_not_mem {α β : Type} [DecidableEq α] (d : List (α × β)) (k : α)
    (h : k ∉ keysOf d) : lookupC d k = none := by
  cases hk : lookupC d k with
  | none => rfl
  | some v =>
      exact absurd ((hasKey_iff_mem d k).1 (by simp [hasKey, hk])) h

theorem lookupC_dictUpdate {α β : Type} [DecidableEq α] (d o : List (α × β)) (k : α)
    (hnd : (keysOf o).Nodup) :
    lookupC (dictUpdate d o) k = orElseO (lookupC o k) (lookupC d k) := by
  induction o generalizing d with
  | nil => simp [dictUpdate, lookupC, orElseO]
  | cons p o2 ih =>
      obtain ⟨k2, v2⟩ := p
      simp only [keysOf, List.map_cons, List.nodup_cons] at hnd
      have hstep : dictUpdate d ((k2, v2) :: o2) = dictUpdate (dictSet d k2 v2) o2 := by
        simp [dictUpdate]
      rw [hstep, ih (dictSet d k2 v2) hnd.2]
      by_cases h : k2 = k
      · subst h
        rw [lookupC_eq_none_of_not_mem o2 k2 hnd.1]
        simp [orElseO, lookupC, lookupC_dictSet]
      · have hne : ¬k2 = k := h
        simp [lookupC, hne, lookupC_dictSet]

theorem findSomeO_append {α β : Type} (l1 l2 : List α) (f : α → Option β) :
    List.findSome? f (l1 ++ l2) =
      orElseO (List.findSome? f l1) (List.findSome? f l2) := by
  induction l1 with
  | nil => simp [orElseO]
  | cons a l ih =>
      cases h : f a with
      | some v => simp [List.findSome?_cons, h, orElseO]
      | none => simp [List.findSome?_cons, h, ih]

/-! ## Claims maps have distinct keys -/

theorem keysOf_dictSet {α β : Type} [DecidableEq α] (d : List (α × β))
    (k : α) (v : β) :
    keysOf (dictSet d k v) =
      if (lookupC d k).isSome then keysOf d else keysOf d ++ [k] := by
  induction d with
  | nil => simp [dictSet, lookupC, keysOf]
  | cons p rest ih =>
      obtain ⟨a, b⟩ := p
      by_cases hak : a = k
      · subst hak
        simp [dictSet, lookupC, keysOf]
      · have ih2 := ih
        simp only [keysOf] at ih2
        by_cases h2 : (lookupC rest k).isSome = true
        · rw [if_pos h2] at ih2
          simp [dictSet, hak, lookupC, keysOf, ih2, h2]
        · rw [if_neg h2] at ih2
          simp [dictSet, hak, lookupC, keysOf, ih2, h2]

theorem dictSet_nodup {α β : Type} [DecidableEq α] (d : List (α × β))
    (k : α) (v : β) (h : (keysOf d).Nodup) :
    (keysOf (dictSet d k v)).Nodup := by
  rw [keysOf_dictSet]
  by_cases hk : (lookupC d k).isSome = true
  · rw [if_pos hk]; exact h
  · rw [if_neg hk]
    have hnm : k ∉ keysOf d := by
      intro hm
      exact hk (by simpa [hasKey] using (hasKey_iff_mem d k).2 hm)
    simp [List.nodup_append, h, hnm]

theorem dictUpdate_nodup {α β : Type} [DecidableEq α] (d o : List (α × β))
    (h : (keysOf d).Nodup) : (keysOf (dictUpdate d o)).Nodup := by
  induction o generalizing d with
  | nil => simpa [dictUpdate] using h
  | cons p o2 ih =>
      obtain ⟨k2, v2⟩ := p
      have hstep : dictUpdate d ((k2, v2) :: o2) = dictUpdate (dictSet d k2 v2) o2 := by
        simp [dictUpdate]
      rw [hstep]
      exact ih _ (dictSet_nodup d k2 v2 h)

theorem claimsAux_nodup (cs : List Override)
    (acc : List (List Str × Override)) (h : (keysOf acc).Nodup) :
    (keysOf (claimsAux acc cs)).Nodup := by
  induction cs generalizing acc with
  | nil => simpa [claimsAux] using h
  | cons c rest ih =>
      simp only [claimsAux]
      exact ih _ (dictUpdate_nodup acc (claimsO c) h)

theorem claimsO_nodup : ∀ (n : Nat) (o : Override), sizeOf o ≤ n →
    (keysOf (claimsO o)).Nodup := by
  intro n
  induction n with
  | zero =>
      intro o h
      exact absurd h (by cases o <;> simp)
  | succ n ih =>
      intro o h
      cases o with
      | template vt src es dest => simp [claimsO, keysOf]
      | jsonConfig vt ov target =>
          simp only [claimsO, flattenClaims]
          exact dictUpdate_nodup [] _ (by simp [keysOf])
      | tutorConfig vt ov target =>
          simp only [claimsO, flattenClaims]
          exact dictUpdate_nodup [] _ (by simp [keysOf])
      | sequence vt cs => exact claimsAux_nodup cs [] (by simp [keysOf])
      | module vt info cs => exact claimsAux_nodup cs [] (by simp [keysOf])
      | reference vt inner =>
          have : sizeOf inner ≤ n := by
            simp at h
            omega
          simpa [claimsO] using ih inner this

/-! ## Claim C5: last-writer-wins claims -/

theorem lookupC_claimsAux (cs : List Override) (k : List Str) :
    ∀ acc : List (List Str × Override),
      lookupC (claimsAux acc cs) k =
        orElseO (List.findSome? (fun c => lookupC (claimsO c) k) cs.reverse)
          (lookupC acc k) := by
  induction cs with
  | nil => intro acc; simp [claimsAux, orElseO]
  | cons c rest ih =>
      intro acc
      simp only [claimsAux]
      rw [ih (dictUpdate acc (claimsO c))]
      rw [lookupC_dictUpdate acc (claimsO c) k
        (claimsO_nodup (sizeOf c) c le_rfl)]
      rw [List.reverse_cons, findSomeO_append]
      simp only [List.findSome?_cons, List.findSome?_nil]
      cases List.findSome? (fun c => lookupC (claimsO c) k) rest.reverse with
      | some v => simp [orElseO]
      | none =>
          cases lookupC (claimsO c) k with
          | some v => simp [orElseO]
          | none => simp [orElseO]

/-- Claim C5: within a sequence, the `claims` mapping resolves every
key-tuple collision in favor of the child occurring later in document
order.  First conjunct: looking up any key in the claims of a sequence
finds the claim of the last child (first in reversed order) whose claims
carry that key.  Second conjunct: with two template overrides claiming
the same destination, the key maps to the second instance. -/
theorem C5_last_writer_wins :
    (∀ (vt : Option Str) (cs : List Override) (k : List Str),
        lookupC (claimsO (.sequence vt cs)) k =
          List.findSome? (fun c => lookupC (claimsO c) k) cs.reverse) ∧
    (∀ (s1 s2 d : Str),
        lookupC (claimsO (.sequence none
            [.template none s1 none d, .template none s2 none d])) [d] =
          some (.template none s2 none d)) := by
  constructor
  · intro vt cs k
    have h := lookupC_claimsAux cs k []
    simpa [claimsO, lookupC, orElseO_none] using h
  · intro s1 s2 d
    have h := lookupC_claimsAux
      [Override.template none s1 none d, Override.template none s2 none d]
      [d] []
    simp only [claimsO] at h ⊢
    rw [h]
    simp [claimsO, lookupC, orElseO]

/-! ## Claim C8: remove_where -/

/-- The method `OverrideSequence.remove_where`, with the loop of the source kept
exactly: `for index, child in enumerate(self.overrides)` examines the
element at the current index of the *live* list; a matching child is
appended to the removed list and deleted in place (so the following
element shifts into the deleted slot while `enumerate` still advances);
a non-matching child that is itself a sequence (or a module, which
subclasses `OverrideSequence`) is recursed into, its removed children
appended.  `fuel` bounds the total number of loop steps and is always
sufficient in the theorems below. -/
def removeWhereAux (pairs : List (Str × V)) (fuel : Nat)
    (l : List Override) (i : Nat) :
    Option (List Override × List Override) :=
  match fuel with
  | 0 => none
  | fuel + 1 =>
      if h : i < l.length then
        let child := l.get ⟨i, h⟩
        if matchO pairs child then
          match removeWhereAux pairs fuel (l.eraseIdx i) (i + 1) with
          | some (rem, l2) => some (child :: rem, l2)
          | none => none
        else
          match child with
          | .sequence vt cs =>
              match removeWhereAux pairs fuel cs 0 with
              | some (remC, cs2) =>
                  match removeWhereAux pairs fuel
                      (l.set i (.sequence vt cs2)) (i + 1) with
                  | some (rem, l2) => some (remC ++ rem, l2)
                  | none => none
              | none => none
          | .module vt info cs =>
              match removeWhereAux pairs fuel cs 0 with
              | some (remC, cs2) =>
                  match removeWhereAux pairs fuel
                      (l.set i (.module vt info cs2)) (i + 1) with
                  | some (rem, l2) => some (remC ++ rem, l2)
                  | none => none
              | none => none
          | _ => removeWhereAux pairs fuel l (i + 1)
      else some ([], l)

/-- The method `remove_where` on the children of a sequence, started at index 0. -/
def removeWhere (pairs : List (Str × V)) (fuel : Nat)
    (l : List Override) : Option (List Override × List Override) :=
  removeWhereAux pairs fuel l 0

/-- Claim C8 (recording the code defect): `remove_where` deletes from
the list it is iterating with `enumerate`, so the element immediately
following a removed child is never examined.  With two adjacent children
both matching the predicate, only the first is removed and returned: the
second — shown matching by the first conjunct — survives in the tree,
although the docstring of `remove_where` promises the removal of every
matching child. -/
theorem C8_adjacent_match_skipped :
    matchO [("dest".toList, .str "d".toList)]
      (.template none "s2".toList none "d".toList) = true ∧
    removeWhere [("dest".toList, .str "d".toList)] 10
        [.template none "s1".toList none "d".toList,
         .template none "s2".toList none "d".toList] =
      some ([.template none "s1".toList none "d".toList],
        [.template none "s2".toList none "d".toList]) := by
  constructor
  · simp [matchO, toObject, wrapMapping, objEntries, lookupC, vbeq]
  · simp [removeWhere, removeWhereAux, matchO, toObject, wrapMapping,
      objEntries, lookupC, vbeq, List.eraseIdx]

/-! ## Claim C9: the module hook -/

/-- The collaborator calls made by `override()`: rendering a template
(`render_template(source_path, dest, tutor_root)` with
`source_path = recon_root / self.src` and `dest = tutor_root / self.dest`)
 and updating a config target (`update_env`). -/
inductive Effect : Type where
  | renderTemplate (sourcePath destPath : Str)
  | updateConfig (target : Str)
deriving DecidableEq

/-- The method `OverrideMixin.apply_module_hook`: the hook invoked by
`OverrideModule.override` on each child.  The base implementation
returns `None` without mutating the override, and no class in the
source overrides it — `TemplateOverride` defines `load_module_hook`
instead, which nothing ever calls — so the hook is the identity on
every child. -/
def applyModuleHook (moduleRoot : Str) (moduleId : Str)
    (tutorRoot reconRoot : Str) (o : Override) : Override := o

/-- Pathlib `Path(p).relative_to(base)` for the module-root paths the hook
builds (the failing branch of `relative_to` raising `ValueError` is not
reachable in the uses below, where `base` is a proper ancestor). -/
def pathRelativeTo (p base : Str) : Str :=
  if List.isPrefixOf (base ++ ['/']) p then p.drop (base.length + 1) else p

/-- The hook loop of `OverrideModule.override` leaves every child as it
was (the hook is the identity). -/
theorem map_applyModuleHook (mr mid tr rr : Str) (cs : List Override) :
    List.map (applyModuleHook mr mid tr rr) cs = cs := by
  induction cs with
  | nil => rfl
  | cons c rest ih => simp [applyModuleHook, ih]

/-- The method `TemplateOverride.load_module_hook`, as written in template.py: set
the effective source to the module directory (relative to the override
root) joined with the stored source.  Dead code in the source: the
module invokes `apply_module_hook`, never this method. -/
def loadModuleHook (moduleRoot reconRoot : Str) : Override → Override
  | .template vt src _ dest =>
      .template vt src (some (joinPath (pathRelativeTo moduleRoot reconRoot) src)) dest
  | o => o

mutual

/-- The sequence of collaborator calls `override()` makes: a template
renders from `recon_root / src` (`src` being the effective source if the
hook set one, else the stored source) to `tutor_root / dest`; configs
update their target; a sequence recurses in document order; a module
first applies `apply_module_hook` to every child with its directory
`recon_root / "modules" / name`, then applies the children; a reference
forwards. -/
def overrideEffects (tutorRoot reconRoot : Str) :
    Override → Except Err (List Effect)
  | .template _ src es dest =>
      .ok [.renderTemplate (joinPath reconRoot (es.getD src))
        (joinPath tutorRoot dest)]
  | .jsonConfig _ _ target => .ok [.updateConfig target]
  | .tutorConfig _ _ target => .ok [.updateConfig target]
  | .sequence _ cs => overrideEffectsList tutorRoot reconRoot cs
  | .module _ info cs =>
      match lookupC info "name".toList with
      | some (.str mid) =>
          overrideEffectsList tutorRoot reconRoot
            (cs.map (applyModuleHook
              (joinPath (joinPath reconRoot "modules".toList) mid) mid
              tutorRoot reconRoot))
      | _ => .error .keyError
  | .reference _ inner => overrideEffects tutorRoot reconRoot inner
termination_by o => sizeOf o
decreasing_by
  all_goals simp_wf
  all_goals try rw [map_applyModuleHook]
  all_goals omega

/-- Element-wise application over a list of children. -/
def overrideEffectsList (tutorRoot reconRoot : Str) :
    List Override → Except Err (List Effect)
  | [] => .ok []
  | c :: rest =>
      match overrideEffects tutorRoot reconRoot c with
      | .ok es =>
          match overrideEffectsList tutorRoot reconRoot rest with
          | .ok es2 => .ok (es ++ es2)
          | .error e => .error e
      | .error e => .error e
termination_by l => sizeOf l
decreasing_by
  all_goals simp_wf
  all_goals omega

end

/-- Claim C9 (recording the code defect): applying a module does invoke
the module hook on each child before applying any child, but the hook is
the inherited no-op — `TemplateOverride` spells its rewrite
`load_module_hook`, which no code path calls — so the template is read
from directly under the override root, not from under the module
directory.  First conjunct: the module-applied template renders from
`recon_root / "templates/t"`.  Second conjunct: the dead
`load_module_hook` would have produced the module-local source the claim
(and the base-class hook docstring) describe.  Third conjunct: the two
source paths differ. -/
theorem C9_module_hook_is_noop :
    overrideEffects "/t".toList "/r".toList
        (.module none [("name".toList, .str "m".toList)]
          [.template none "templates/t".toList none "env/t".toList]) =
      .ok [.renderTemplate (joinPath "/r".toList "templates/t".toList)
        (joinPath "/t".toList "env/t".toList)] ∧
    overrideEffects "/t".toList "/r".toList
        (.sequence none
          [loadModuleHook (joinPath (joinPath "/r".toList "modules".toList)
              "m".toList) "/r".toList
            (.template none "templates/t".toList none "env/t".toList)]) =
      .ok [.renderTemplate
        (joinPath "/r".toList (joinPath "modules/m".toList "templates/t".toList))
        (joinPath "/t".toList "env/t".toList)] ∧
    joinPath "/r".toList "templates/t".toList ≠
      joinPath "/r".toList (joinPath "modules/m".toList "templates/t".toList) := by
  refine ⟨?_, ?_, by simp [joinPath]⟩
  · simp [overrideEffects, overrideEffectsList, lookupC, applyModuleHook,
      joinPath]
  · simp [overrideEffects, overrideEffectsList, loadModuleHook,
      pathRelativeTo, joinPath, List.isPrefixOf]

/-! ## Claim C2: the dump backup discipline (vjson/functions.py) -/

/-- Python exceptions for the dump model: an underlying serialization or
I/O error, and the `IOError` that `dump` raises chained from it. -/
inductive PyExc : Type where
  | exc (tag : Nat)
  | ioErrorFrom (cause : PyExc)
deriving DecidableEq

/-- The filesystem as text contents per path. -/
abbrev TextFS := List (Str × Str)

/-- The function `vjson.functions.dump` called with a destination path (`fp=None`)
and the default keyword arguments (`backup=".bak"`,
`write_trailing_newline=True`).  The serialization attempt is a
parameter: either the full text `json.dump` would write, or the
exception it raises.  Control flow of the source, in order:
`fp = open(dest, "w")` truncates (or creates) the destination on disk;
`copy(dest, backup_path)` then copies the already-truncated file; on
success the text plus a trailing newline is written and `finally`
unlinks the backup; on exception `backup_path.rename(dest)` puts the
backup content at the destination (the buffered unfinished output is
flushed on close to the replaced inode and is not visible at `dest`,
and the `finally` unlink of the renamed-away backup is a no-op thanks
to `missing_ok=True`), and `raise IOError from e` propagates a new
`IOError` chained from the original exception. -/
def dump (fs : TextFS) (dest : Str) (ser : Except PyExc Str) :
    TextFS × Except PyExc Unit :=
  let fs1 := dictSet fs dest []
  let bak := dest ++ ".bak".toList
  let bakContent := (lookupC fs1 dest).getD []
  let fs2 := dictSet fs1 bak bakContent
  match ser with
  | .ok text =>
      (removeKey (dictSet fs2 dest (text ++ ['\n'])) bak, .ok ())
  | .error e =>
      (dictSet (removeKey fs2 bak) dest bakContent, .error (.ioErrorFrom e))

/-- Claim C2 (recording the code defect): when serialization fails, the
destination does NOT regain its pre-call content — `open(dest, "w")`
truncates the file before the backup copy is taken, so the restored
backup is empty and the original content is lost — and the caller sees a
new `IOError` chained from the original exception, not the original
exception itself.  On success the backup file is deleted, as the claim
says.  First conjunct: the failing run ends with the destination empty
(it held `ORIG` before) and raises the wrapped error.  Second conjunct:
the wrapped error differs from the original.  Third conjunct: the
successful run leaves only the destination, newline-terminated. -/
theorem C2_dump_backup_truncated :
    dump [("f.json".toList, "ORIG".toList)] "f.json".toList
        (.error (.exc 7)) =
      ([("f.json".toList, [])], .error (.ioErrorFrom (.exc 7))) ∧
    PyExc.ioErrorFrom (.exc 7) ≠ .exc 7 ∧
    dump [("f.json".toList, "ORIG".toList)] "f.json".toList
        (.ok "X".toList) =
      ([("f.json".toList, "X".toList ++ ['\n'])], .ok ()) := by
  refine ⟨?_, by simp, ?_⟩
  · simp [dump, dictSet, lookupC, removeKey]
  · simp [dump, dictSet, lookupC, removeKey]

/-! ## Claim C6: the JSON-file-backed config override (config.py) -/

/-- The function `misc.set_nested`: assign `value` under the nested key sequence,
creating intermediate plain dicts where a key is absent; assigning
through an existing non-mapping value raises `TypeError`, and an empty
key sequence violates the assertion. -/
def setNested (m : V) : List Str → V → Except Err V
  | [], _ => .error .assertionError
  | [k], v =>
      match m with
      | .obj ps => .ok (.obj (dictSet ps k v))
      | .remote t ps => .ok (.remote t (dictSet ps k v))
      | _ => .error .typeError
  | k :: k2 :: rest, v =>
      match m with
      | .obj ps =>
          match lookupC ps k with
          | none => do
              let sub ← setNested (.obj []) (k2 :: rest) v
              .ok (.obj (dictSet ps k sub))
          | some child => do
              let sub ← setNested child (k2 :: rest) v
              .ok (.obj (dictSet ps k sub))
      | .remote t ps =>
          match lookupC ps k with
          | none => do
              let sub ← setNested (.obj []) (k2 :: rest) v
              .ok (.remote t (dictSet ps k sub))
          | some child => do
              let sub ← setNested child (k2 :: rest) v
              .ok (.remote t (dictSet ps k sub))
      | _ => .error .typeError

/-- The function `misc.recursive_update`: walk the terminal values of `other` and
assign each under its key path in `env`. -/
def recursiveUpdate (env : V) (other : List (Str × V)) : Except Err V :=
  (walkDict [] other).foldlM (fun acc kv => setNested acc kv.1 kv.2) env

/-- The filesystem as parsed JSON values per path, for the plain
`json.load`/`json.dump` the config override uses. -/
abbrev VFS := List (Str × V)

/-- The method `JSONOverrideConfig.load_from_env`: `open(tutor_root / target)` and
`json.load` — a missing host file is a hard error
(`FileNotFoundError`). -/
def jsonLoadFromEnv (vfs : VFS) (tutorRoot target : Str) : Except Err V :=
  match lookupC vfs (joinPath tutorRoot target) with
  | none => .error .fileNotFoundError
  | some v => .ok v

/-- The method `JSONOverrideConfig.update_env`: re-read the host file fresh,
recursively merge the override settings on top, write the result
back. -/
def jsonUpdateEnv (vfs : VFS) (tutorRoot target : Str)
    (ov : List (Str × V)) : Except Err VFS := do
  let env ← jsonLoadFromEnv vfs tutorRoot target
  let env2 ← recursiveUpdate env ov
  .ok (dictSet vfs (joinPath tutorRoot target) env2)

/-- The method `OverrideConfig.override`: `self.update_env(tutor_root,
self.overrides)` — the recon root plays no part. -/
def jsonConfigOverride (vfs : VFS) (tutorRoot reconRoot : Str)
    (ov : List (Str × V)) (target : Str) : Except Err VFS :=
  jsonUpdateEnv vfs tutorRoot target ov

/-- Claim C6: with the host file holding FOO = a and BAR = b and the
override document holding FOO = z, `override()` on the JSON-file-backed
config re-reads the host file, merges the overrides on top and writes
back FOO = z, BAR = b.  The host state is read inside `update_env` at
call time (`jsonLoadFromEnv`), never cached. -/
theorem C6_json_override_merges :
    jsonConfigOverride
        [(joinPath "/t".toList "c.json".toList,
          .obj [("FOO".toList, .str "a".toList),
            ("BAR".toList, .str "b".toList)])]
        "/t".toList "/r".toList
        [("FOO".toList, .str "z".toList)] "c.json".toList =
      .ok [(joinPath "/t".toList "c.json".toList,
        .obj [("FOO".toList, .str "z".toList),
          ("BAR".toList, .str "b".toList)])] := by
  simp [jsonConfigOverride, jsonUpdateEnv, jsonLoadFromEnv, recursiveUpdate,
    walkDict, setNested, lookupC, dictSet, joinPath, Bind.bind, Except.bind,
    Pure.pure, Except.pure]

end TCRecon
